import Mathlib

/-!
Verification of the dependency-chain extraction core of the
`generate-osv-config` tool (`src/helpers/yarn.ts`, class `YarnPackageManager`).

Strings are modelled as `List Char`.  The `yarn why --json` transcript is
modelled at the granularity the code consumes it: a list of lines, each either
a parsed record (`some r`) or a line on which `JSON.parse` failed (`none`,
skipped by the `catch { continue }` in `extractVersionLines`).  Record payloads
follow the shapes the code reads through duck typing: `info` carries
`data.data || ""`, `list` carries `data.data.type` and `data.data.items || []`,
`tree` carries `data.data.trees || []`; `step` and any other record kind are
inert.  Tree nodes are `null`/non-object entries (`YTree.null`) or objects with
an optional `name` and a `children` array (absent children and `[]` behave
identically in the code, so both are the empty list).

NOTE on the tree separator: the bytes of `yarn.ts` line 191 are
`20 C3 A2 E2 80 A0 E2 80 99 20`, i.e. the three characters U+00E2 U+2020 U+2019
between two spaces (a mojibake double-encoding of U+2192 `→`).  The embedding
reproduces those exact bytes (`arrowSepCode`); the repository's own tests
(`yarn.test.ts` lines 270 and 876-878) expect the genuine arrow `" → "`
(`arrowSepSpec`), so the two are kept apart deliberately.
-/

abbrev Str := List Char

/-- `List Char` of a Lean string literal. -/
def str (s : String) : Str := s.toList

/-- The double-quote character (U+0022), used by the quote-stripping regexes
`/^"/`, `/"$/` and by the capture patterns `"([^"]+)"`. -/
def quoteChar : Char := Char.ofNat 34

/-- JS `s.includes(pat)`: `pat` occurs contiguously in `s`. -/
def isSubstr (pat : Str) : Str → Bool
  | [] => pat.isEmpty
  | c :: rest => pat.isPrefixOf (c :: rest) || isSubstr pat rest

/-- JS `item.replace(/^"/, "")`: drop one leading double quote if present. -/
def stripLeadQuote (s : Str) : Str :=
  match s with
  | c :: rest => if c = quoteChar then rest else s
  | [] => []

/-- JS `item.replace(/"$/, "")`: drop one trailing double quote if present. -/
def stripTrailQuote (s : Str) : Str :=
  if s.getLast? = some quoteChar then s.dropLast else s

/-- JS `s.replace(pat, "")` with a *string* pattern: remove the leftmost
occurrence of `pat` only (later occurrences stay). -/
def replaceFirst (pat : Str) : Str → Str
  | [] => []
  | c :: rest =>
      if pat.isPrefixOf (c :: rest) then (c :: rest).drop pat.length
      else c :: replaceFirst pat rest

/-- The `"_project_#"` noise token removed from candidate chains. -/
def projToken : Str := str "_project_#"

/-- Filter test `chain.includes("workspace aggregator") || chain.includes("workspace-aggregator")`. -/
def hasAggregator (c : Str) : Bool :=
  isSubstr (str "workspace aggregator") c || isSubstr (str "workspace-aggregator") c

/-- Tree node of a `tree` record: `null`/non-object entries, or an object with
optional `name` and a (possibly missing or empty) `children` array. -/
inductive YTree where
  | null : YTree
  | node (name : Option Str) (children : List YTree) : YTree

/-- One parsed transcript record, shaped as `extractVersionLines` /
`extractDependencyChains` read it through `data.type` and `data.data`. -/
inductive YRec where
  | info (msg : Str) : YRec
  | list (subkind : Str) (items : List Str) : YRec
  | tree (trees : List YTree) : YRec
  | step : YRec
  | other : YRec

/-- Test `data.type === "info" && info.includes("=> Found")`. -/
def isFoundRec (r : YRec) : Bool :=
  match r with
  | .info m => isSubstr (str "=> Found") m
  | _ => false

/-- Test `data.type === "info" && info.includes("=> Found") && info.includes("@" + version)`. -/
def isMatchMarker (v : Str) (r : YRec) : Bool :=
  match r with
  | .info m => isSubstr (str "=> Found") m && isSubstr ('@' :: v) m
  | _ => false

/-- Loop body of `extractVersionLines`: `blocks`/`cur`/`inB` are
`versionBlocks`, `currentBlock`, `inVersionBlock`; a `none` line is the
`catch { continue }` of a failed `JSON.parse`.  At end of stream the final
block is flushed when `inVersionBlock && currentBlock.length > 0`, and the
blocks are concatenated into `allVersionLines`. -/
def extractVersionLinesAux (v : Str) :
    List (Option YRec) → List (List YRec) → List YRec → Bool → List YRec
  | [], blocks, cur, inB =>
      (if inB && !cur.isEmpty then blocks ++ [cur] else blocks).flatten
  | none :: rest, blocks, cur, inB => extractVersionLinesAux v rest blocks cur inB
  | some data :: rest, blocks, cur, inB =>
      if isMatchMarker v data then
        extractVersionLinesAux v rest
          (if !cur.isEmpty then blocks ++ [cur] else blocks) [data] true
      else if isFoundRec data then
        extractVersionLinesAux v rest
          (if inB && !cur.isEmpty then blocks ++ [cur] else blocks) [] false
      else
        extractVersionLinesAux v rest blocks (if inB then cur ++ [data] else cur) inB

/-- `extractVersionLines(lines, version)` of `yarn.ts`. -/
def extractVersionLines (lines : List (Option YRec)) (v : Str) : List YRec :=
  extractVersionLinesAux v lines [] [] false

/-- Shared normalization of a candidate chain (the three identical push sites
in `extractDependencyChains`): remove the first `"_project_#"`, then keep the
chain only if it is non-empty and free of the workspace-aggregator noise. -/
def normalizeCandidate (c : Str) : List Str :=
  let chain := replaceFirst projToken c
  if chain.isEmpty || hasAggregator chain then [] else [chain]

/-- Chains contributed by one item of a `reasons` list: strip one leading and
one trailing quote, then normalize. -/
def reasonItemChains (item : Str) : List Str :=
  normalizeCandidate (stripTrailQuote (stripLeadQuote item))

/-- The separator the code actually inserts between tree node names: the bytes
on `yarn.ts` line 191, ` ` U+00E2 U+2020 U+2019 ` ` (mojibake of `" → "`). -/
def arrowSepCode : Str := [' ', Char.ofNat 0xE2, Char.ofNat 0x2020, Char.ofNat 0x2019, ' ']

/-- The separator the specification and the repository's tests use: `" → "`
with the genuine arrow U+2192. -/
def arrowSepSpec : Str := str " → "

/-- `extractChainFromTree(tree, parentChain)` of `yarn.ts`: `null`/non-object
nodes yield `null`; otherwise the node's name (or `""`) is appended to the
parent chain and the walk follows the first child, if any. -/
def extractChainFromTree : YTree → Str → Option Str
  | .null, _ => none
  | .node name children, parentChain =>
      let n := name.getD []
      let currentChain := if parentChain.isEmpty then n else parentChain ++ arrowSepCode ++ n
      match children with
      | c :: _ => extractChainFromTree c currentChain
      | [] => some currentChain

/-- Chains contributed by one root of a `tree` record: the walk's result, kept
when truthy (non-null and non-empty). -/
def treeChains (t : YTree) : List Str :=
  match extractChainFromTree t [] with
  | some c => if c.isEmpty then [] else [c]
  | none => []

/-- Attempt of the pattern `"([^"]+)" depends on it` anchored at the start of
`s`, returning the capture: a double quote, a maximal non-empty run of
non-quote characters, a double quote, then the literal ` depends on it`. -/
def tryDependsAt (s : Str) : Option Str :=
  match s with
  | c :: rest =>
      if c = quoteChar then
        let x := rest.takeWhile (fun d => d ≠ quoteChar)
        if !x.isEmpty && (quoteChar :: str " depends on it").isPrefixOf (rest.drop x.length)
        then some x else none
      else none
  | [] => none

/-- Attempt of the pattern `exists because "([^"]+)" depends on it` anchored at
the start of `s`. -/
def tryExistsAt (s : Str) : Option Str :=
  if (str "exists because ").isPrefixOf s then tryDependsAt (s.drop 15) else none

/-- Leftmost match: JS `s.match(re)` tries the pattern at each position and
returns the first capture found. -/
def firstCapture (tryAt : Str → Option Str) : Str → Option Str
  | [] => none
  | c :: rest =>
      match tryAt (c :: rest) with
      | some x => some x
      | none => firstCapture tryAt rest

/-- Chains contributed by an `info` record: `dependsMatch` first, and only when
it is absent the narrower `existsMatch` (both normalized identically). -/
def infoChains (msg : Str) : List Str :=
  match firstCapture tryDependsAt msg with
  | some x => normalizeCandidate x
  | none =>
      match firstCapture tryExistsAt msg with
      | some x => normalizeCandidate x
      | none => []

/-- Raw chains contributed by one retained record, in push order (the loop body
of `extractDependencyChains` before deduplication). -/
def chainsOfRec (r : YRec) : List Str :=
  match r with
  | .list subkind items =>
      if subkind = str "reasons" then items.flatMap reasonItemChains else []
  | .tree trees => trees.flatMap treeChains
  | .info msg => infoChains msg
  | _ => []

/-- Deduplication loop of `extractDependencyChains`: `seen` is the `Set`,
chains already seen are dropped, first occurrences kept in order. -/
def dedupAux : List Str → List Str → List Str
  | [], _ => []
  | c :: rest, seen =>
      if c ∈ seen then dedupAux rest seen else c :: dedupAux rest (c :: seen)

/-- All raw chains of the retained record stream, in push order. -/
def rawChains (vl : List YRec) : List Str := vl.flatMap chainsOfRec

/-- `extractDependencyChains(versionLines)` of `yarn.ts`. -/
def extractDependencyChains (vl : List YRec) : List Str :=
  dedupAux (rawChains vl) []

/-- `parseYarnWhyOutput(output, version)`: extract, dedup, and either join the
first five chains with `" | "` or fall back to the parse sentinel. -/
def parseYarnWhyOutput (lines : List (Option YRec)) (v : Str) : Str :=
  let chains := extractDependencyChains (extractVersionLines lines v)
  if chains.isEmpty then str "Unable to parse yarn output"
  else List.intercalate (str " | ") (chains.take 5)

/-- Outcome of the `spawnSync("yarn", ["why", "--json", pkg])` call as
`getDependencyChain` distinguishes it: the call threw, `result.stdout` was
falsy (absent, `null` or `""`), or a (trimmed, line-split, per-line parsed)
transcript was available. -/
inductive SpawnOutcome where
  | threw : SpawnOutcome
  | noStdout : SpawnOutcome
  | stdout (lines : List (Option YRec)) : SpawnOutcome

/-- `getDependencyChain(packageName, version)` of `yarn.ts`, as a function of
the spawn outcome. -/
def getDependencyChain (res : SpawnOutcome) (v : Str) : Str :=
  match res with
  | .stdout lines => parseYarnWhyOutput lines v
  | _ => str "Unable to determine dependency chain"

/-! ### Specification-side definitions

These follow the wording of the specification (§3, §4.2-4.4) and are compared
with the translated code above. -/

/-- Two-state segmenter of spec §4.2 written as a plain retention scan: a
matching marker is retained and puts the machine Inside, any other `Found`
marker puts it Outside and is dropped, every other record is retained exactly
when the machine is Inside. -/
def specRetainAux (v : Str) : Bool → List YRec → List YRec
  | _, [] => []
  | inside, r :: rest =>
      if isMatchMarker v r then r :: specRetainAux v true rest
      else if isFoundRec r then specRetainAux v false rest
      else if inside then r :: specRetainAux v true rest
      else specRetainAux v false rest

/-- State (Inside = `true`) of the two-state machine after consuming a record
stream from state `b`. -/
def stateAfter (v : Str) : Bool → List YRec → Bool
  | b, [] => b
  | b, r :: rest =>
      stateAfter v (if isMatchMarker v r then true else if isFoundRec r then false else b) rest

/-- Version blocks of spec §3: each block opens at a matching marker, contains
it, and extends over the following records up to (excluding) the next `Found`
marker. -/
def specBlocks (v : Str) : List YRec → List (List YRec)
  | [] => []
  | r :: rest =>
      if isMatchMarker v r then
        (r :: rest.takeWhile (fun x => !isFoundRec x)) ::
          specBlocks v (rest.dropWhile (fun x => !isFoundRec x))
      else specBlocks v rest
termination_by l => l.length
decreasing_by
  · exact Nat.lt_succ_of_le ((List.dropWhile_suffix _).sublist.length_le)
  · exact Nat.lt_succ_self _

/-- First-seen-order deduplication of spec §4.4: keep the head, drop its later
duplicates, recurse. -/
def keepFirst : List Str → List Str
  | [] => []
  | c :: rest => c :: keepFirst (rest.filter (fun x => x ≠ c))
termination_by l => l.length
decreasing_by exact Nat.lt_succ_of_le (List.length_filter_le _ _)

/-- Node names on the first-child walk of spec §4.3 strategy 2, root first;
`none` when the walk hits a `null`/non-object node. -/
def firstChildPath : YTree → Option (List Str)
  | .null => none
  | .node name [] => some [name.getD []]
  | .node name (c :: _) => (firstChildPath c).map (fun p => name.getD [] :: p)

/-- Chain-building step the code uses: append a name to the accumulated chain,
inserting the separator only when the accumulator is non-empty. -/
def stepArrow (acc n : Str) : Str := if acc.isEmpty then n else acc ++ arrowSepCode ++ n

/-- Quote stripping of spec §4.3 strategy 1: remove a single leading and a
single trailing quote character if present. -/
def specStripQuotes (s : Str) : Str :=
  let s1 := if s.head? = some quoteChar then s.tail else s
  if s1.getLast? = some quoteChar then s1.dropLast else s1

/-- Info-text strategy using only the `"<X>" depends on it` pattern (the
collapsed single-pattern form of spec §4.3 strategy 3). -/
def infoChainsSingle (msg : Str) : List Str :=
  match firstCapture tryDependsAt msg with
  | some x => normalizeCandidate x
  | none => []

/-- `chainsOfRec` with the dead `exists because` branch deleted. -/
def chainsOfRecSingle (r : YRec) : List Str :=
  match r with
  | .list subkind items =>
      if subkind = str "reasons" then items.flatMap reasonItemChains else []
  | .tree trees => trees.flatMap treeChains
  | .info msg => infoChainsSingle msg
  | _ => []

/-- `extractDependencyChains` with the dead `exists because` branch deleted. -/
def extractDependencyChainsSingle (vl : List YRec) : List Str :=
  dedupAux (vl.flatMap chainsOfRecSingle) []

/-- The first-child walk of `t` reaches a node whose `children` array is
non-empty with a `null`/non-object first element. -/
inductive ReachesBadChild : YTree → Prop where
  | head (name : Option Str) (rest : List YTree) :
      ReachesBadChild (.node name (.null :: rest))
  | step (name : Option Str) (c : YTree) (rest : List YTree) :
      ReachesBadChild c → ReachesBadChild (.node name (c :: rest))

/-! ### Bridging lemmas -/

theorem prefixOf_iff (p : Str) : ∀ s : Str, p.isPrefixOf s = true ↔ p <+: s := by
  induction p with
  | nil => intro s; simp [List.isPrefixOf]
  | cons a p ih =>
      intro s
      cases s with
      | nil => simp [List.isPrefixOf]
      | cons b s' => simp [List.isPrefixOf, List.cons_prefix_cons, ih]

theorem isSubstr_iff (pat : Str) : ∀ s : Str, isSubstr pat s = true ↔ pat <:+: s := by
  intro s
  induction s with
  | nil => simp [isSubstr, List.isEmpty_iff, List.infix_nil]
  | cons c rest ih => simp [isSubstr, prefixOf_iff, ih, List.infix_cons_iff]

theorem matchMarker_found {v : Str} {r : YRec} (h : isMatchMarker v r = true) :
    isFoundRec r = true := by
  cases r <;> simp_all [isMatchMarker, isFoundRec]

theorem retain_found_head (v : Str) (b b' : Bool) (r : YRec) (rest : List YRec)
    (h : isFoundRec r = true) :
    specRetainAux v b (r :: rest) = specRetainAux v b' (r :: rest) := by
  by_cases hm : isMatchMarker v r = true
  · simp [specRetainAux, hm]
  · simp [specRetainAux, hm, h]

theorem flatten_snoc (blocks : List (List YRec)) (cur : List YRec) :
    (blocks ++ [cur]).flatten = blocks.flatten ++ cur := by
  simp

theorem evlAux_eq (v : Str) :
    ∀ (lines : List (Option YRec)) (blocks : List (List YRec)) (cur : List YRec) (inB : Bool),
      (inB = false → cur = []) →
      extractVersionLinesAux v lines blocks cur inB =
        blocks.flatten ++ cur ++ specRetainAux v inB (lines.filterMap id) := by
  intro lines
  induction lines with
  | nil =>
      intro blocks cur inB h
      cases inB with
      | false => simp [extractVersionLinesAux, h rfl, specRetainAux]
      | true =>
          by_cases hc : cur.isEmpty
          · have : cur = [] := by simpa [List.isEmpty_iff] using hc
            simp [extractVersionLinesAux, this, specRetainAux, hc]
          · simp [extractVersionLinesAux, hc, specRetainAux, flatten_snoc]
  | cons line rest ih =>
      intro blocks cur inB h
      cases line with
      | none =>
          simpa [extractVersionLinesAux] using ih blocks cur inB h
      | some data =>
          by_cases hm : isMatchMarker v data = true
          · have step1 : extractVersionLinesAux v (some data :: rest) blocks cur inB =
                extractVersionLinesAux v rest
                  (if !cur.isEmpty then blocks ++ [cur] else blocks) [data] true := by
              simp [extractVersionLinesAux, hm]
            rw [step1, ih _ [data] true (by intro hx; cases hx)]
            by_cases hc : cur.isEmpty
            · have : cur = [] := by simpa [List.isEmpty_iff] using hc
              simp [this, hc, specRetainAux, hm]
            · simp [hc, flatten_snoc, specRetainAux, hm]
          · by_cases hf : isFoundRec data = true
            · have step1 : extractVersionLinesAux v (some data :: rest) blocks cur inB =
                  extractVersionLinesAux v rest
                    (if inB && !cur.isEmpty then blocks ++ [cur] else blocks) [] false := by
                simp [extractVersionLinesAux, hm, hf]
              rw [step1, ih _ [] false (fun _ => rfl)]
              cases inB with
              | false =>
                  have hcur : cur = [] := h rfl
                  simp [hcur, specRetainAux, hm, hf]
              | true =>
                  by_cases hc : cur.isEmpty
                  · have : cur = [] := by simpa [List.isEmpty_iff] using hc
                    simp [this, hc, specRetainAux, hm, hf]
                  · simp [hc, flatten_snoc, specRetainAux, hm, hf]
            · cases inB with
              | false =>
                  have step1 : extractVersionLinesAux v (some data :: rest) blocks cur false =
                      extractVersionLinesAux v rest blocks cur false := by
                    simp [extractVersionLinesAux, hm, hf]
                  have hcur : cur = [] := h rfl
                  rw [step1, ih blocks cur false h]
                  simp [hcur, specRetainAux, hm, hf]
              | true =>
                  have step1 : extractVersionLinesAux v (some data :: rest) blocks cur true =
                      extractVersionLinesAux v rest blocks (cur ++ [data]) true := by
                    simp [extractVersionLinesAux, hm, hf]
                  rw [step1, ih blocks (cur ++ [data]) true (by intro hx; cases hx)]
                  simp [specRetainAux, hm, hf]

theorem evl_eq_spec (lines : List (Option YRec)) (v : Str) :
    extractVersionLines lines v = specRetainAux v false (lines.filterMap id) := by
  simpa [extractVersionLines] using evlAux_eq v lines [] [] false (fun _ => rfl)

theorem retain_true_split (v : Str) :
    ∀ l : List YRec, specRetainAux v true l =
      l.takeWhile (fun r => !isFoundRec r) ++
        specRetainAux v false (l.dropWhile (fun r => !isFoundRec r)) := by
  intro l
  induction l with
  | nil => simp [specRetainAux]
  | cons r rest ih =>
      by_cases hf : isFoundRec r = true
      · have ht : List.takeWhile (fun r => !isFoundRec r) (r :: rest) = [] := by
          simp [List.takeWhile_cons, hf]
        have hd : List.dropWhile (fun r => !isFoundRec r) (r :: rest) = r :: rest := by
          simp [List.dropWhile_cons, hf]
        rw [ht, hd, List.nil_append]
        exact retain_found_head v true false r rest hf
      · have hm : ¬ isMatchMarker v r = true := fun hc => hf (matchMarker_found hc)
        have ht : List.takeWhile (fun r => !isFoundRec r) (r :: rest) =
            r :: List.takeWhile (fun r => !isFoundRec r) rest := by
          simp [List.takeWhile_cons, hf]
        have hd : List.dropWhile (fun r => !isFoundRec r) (r :: rest) =
            List.dropWhile (fun r => !isFoundRec r) rest := by
          simp [List.dropWhile_cons, hf]
        rw [ht, hd]
        simp [specRetainAux, hm, hf, ih]

theorem retain_false_eq_blocks (v : Str) :
    ∀ l : List YRec, specRetainAux v false l = (specBlocks v l).flatten := by
  intro l
  induction l using specBlocks.induct v with
  | case1 => simp [specRetainAux, specBlocks]
  | case2 r rest hm ih =>
      rw [specBlocks]
      simp only [hm, if_pos]
      have hstep : specRetainAux v false (r :: rest) = r :: specRetainAux v true rest := by
        simp [specRetainAux, hm]
      rw [hstep, retain_true_split, List.flatten_cons, ih]
      simp
  | case3 r rest hm ih =>
      rw [specBlocks]
      simp only [hm, if_neg]
      by_cases hf : isFoundRec r = true
      · simpa [specRetainAux, hm, hf] using ih
      · simpa [specRetainAux, hm, hf] using ih

theorem blocks_shape (v : Str) :
    ∀ l : List YRec, ∀ b ∈ specBlocks v l,
      ∃ m t, b = m :: t ∧ isMatchMarker v m = true ∧ ∀ r ∈ t, isFoundRec r = false := by
  intro l
  induction l using specBlocks.induct v with
  | case1 => simp [specBlocks]
  | case2 r rest hm ih =>
      intro b hb
      rw [specBlocks] at hb
      simp only [hm, if_pos, List.mem_cons] at hb
      rcases hb with hb | hb
      · refine ⟨r, _, hb, hm, ?_⟩
        intro x hx
        have := List.mem_takeWhile_imp hx
        simpa using this
      · exact ih b hb
  | case3 r rest hm ih =>
      intro b hb
      rw [specBlocks] at hb
      simp only [hm, if_neg] at hb
      exact ih b hb

theorem retained_marker (v : Str) :
    ∀ (l : List YRec) (b : Bool) (r : YRec), r ∈ specRetainAux v b l →
      isFoundRec r = true → isMatchMarker v r = true := by
  intro l
  induction l with
  | nil => intro b r hr; simp [specRetainAux] at hr
  | cons x rest ih =>
      intro b r hr hf
      by_cases hm : isMatchMarker v x = true
      · rw [show specRetainAux v b (x :: rest) = x :: specRetainAux v true rest from by
            simp [specRetainAux, hm]] at hr
        rcases List.mem_cons.mp hr with h | h
        · exact h ▸ hm
        · exact ih true r h hf
      · by_cases hxf : isFoundRec x = true
        · rw [show specRetainAux v b (x :: rest) = specRetainAux v false rest from by
              simp [specRetainAux, hm, hxf]] at hr
          exact ih false r hr hf
        · cases b with
          | false =>
              rw [show specRetainAux v false (x :: rest) = specRetainAux v false rest from by
                  simp [specRetainAux, hm, hxf]] at hr
              exact ih false r hr hf
          | true =>
              rw [show specRetainAux v true (x :: rest) = x :: specRetainAux v true rest from by
                  simp [specRetainAux, hm, hxf]] at hr
              rcases List.mem_cons.mp hr with h | h
              · exact absurd (h ▸ hf) (by simp [hxf])
              · exact ih true r h hf

theorem retain_append (v : Str) :
    ∀ (xs : List YRec) (b : Bool) (ys : List YRec),
      specRetainAux v b (xs ++ ys) =
        specRetainAux v b xs ++ specRetainAux v (stateAfter v b xs) ys := by
  intro xs
  induction xs with
  | nil => intro b ys; simp [specRetainAux, stateAfter]
  | cons x rest ih =>
      intro b ys
      by_cases hm : isMatchMarker v x = true
      · simp only [List.cons_append]
        rw [show specRetainAux v b (x :: (rest ++ ys)) = x :: specRetainAux v true (rest ++ ys)
              from by simp [specRetainAux, hm],
            show specRetainAux v b (x :: rest) = x :: specRetainAux v true rest
              from by simp [specRetainAux, hm],
            show stateAfter v b (x :: rest) = stateAfter v true rest
              from by simp [stateAfter, hm],
            ih true ys]
        simp
      · by_cases hxf : isFoundRec x = true
        · simp only [List.cons_append]
          rw [show specRetainAux v b (x :: (rest ++ ys)) = specRetainAux v false (rest ++ ys)
                from by simp [specRetainAux, hm, hxf],
              show specRetainAux v b (x :: rest) = specRetainAux v false rest
                from by simp [specRetainAux, hm, hxf],
              show stateAfter v b (x :: rest) = stateAfter v false rest
                from by simp [stateAfter, hm, hxf],
              ih false ys]
        · cases b with
          | false =>
              simp only [List.cons_append]
              rw [show specRetainAux v false (x :: (rest ++ ys)) = specRetainAux v false (rest ++ ys)
                    from by simp [specRetainAux, hm, hxf],
                  show specRetainAux v false (x :: rest) = specRetainAux v false rest
                    from by simp [specRetainAux, hm, hxf],
                  show stateAfter v false (x :: rest) = stateAfter v false rest
                    from by simp [stateAfter, hm, hxf],
                  ih false ys]
          | true =>
              simp only [List.cons_append]
              rw [show specRetainAux v true (x :: (rest ++ ys)) = x :: specRetainAux v true (rest ++ ys)
                    from by simp [specRetainAux, hm, hxf],
                  show specRetainAux v true (x :: rest) = x :: specRetainAux v true rest
                    from by simp [specRetainAux, hm, hxf],
                  show stateAfter v true (x :: rest) = stateAfter v true rest
                    from by simp [stateAfter, hm, hxf],
                  ih true ys]
              simp

theorem retain_noFound (v : Str) :
    ∀ mid : List YRec, (∀ r ∈ mid, isFoundRec r = false) →
      specRetainAux v false mid = [] ∧ stateAfter v false mid = false := by
  intro mid
  induction mid with
  | nil => intro _; exact ⟨rfl, rfl⟩
  | cons x rest ih =>
      intro h
      have hxf : isFoundRec x = false := h x (List.mem_cons_self x rest)
      have hm : ¬ isMatchMarker v x = true := by
        intro hc; rw [matchMarker_found hc] at hxf; cases hxf
      have := ih (fun r hr => h r (List.mem_cons_of_mem x hr))
      constructor
      · rw [show specRetainAux v false (x :: rest) = specRetainAux v false rest from by
            simp [specRetainAux, hm, hxf]]
        exact this.1
      · rw [show stateAfter v false (x :: rest) = stateAfter v false rest from by
            simp [stateAfter, hm, hxf]]
        exact this.2

theorem filterMap_map_some (l : List YRec) : (l.map some).filterMap id = l := by
  induction l with
  | nil => rfl
  | cons x rest ih => simp [ih]

theorem retain_drop_nonmatching_span (v : Str)
    (pre : List YRec) (m1 : YRec) (mid post : List YRec)
    (hf : isFoundRec m1 = true) (hm : isMatchMarker v m1 = false)
    (hmid : ∀ r ∈ mid, isFoundRec r = false)
    (hpost : post = [] ∨ ∃ f rest, post = f :: rest ∧ isFoundRec f = true) :
    specRetainAux v false (pre ++ m1 :: (mid ++ post)) =
      specRetainAux v false (pre ++ post) := by
  rw [retain_append v pre false (m1 :: (mid ++ post)), retain_append v pre false post]
  congr 1
  have hm1 : ∀ b : Bool, specRetainAux v b (m1 :: (mid ++ post)) =
      specRetainAux v false (mid ++ post) := by
    intro b
    by_cases hb : isMatchMarker v m1 = true
    · rw [hb] at hm; cases hm
    · simp [specRetainAux, hb, hf]
  rw [hm1 (stateAfter v false pre), retain_append v mid false post,
      (retain_noFound v mid hmid).1, (retain_noFound v mid hmid).2, List.nil_append]
  rcases hpost with rfl | ⟨f, rest, rfl, hff⟩
  · simp [specRetainAux]
  · exact retain_found_head v false (stateAfter v false pre) f rest hff

/-- C3: the retained record stream fed to the extractor is exactly the
concatenation, in encounter order, of the matching version blocks; each block
starts with (and contains) its matching `=> Found …@version` marker;
non-matching `Found` markers are never retained; and a non-matching marker
together with the records following it up to the next `Found` marker (or the
end of the stream) contributes nothing to the retained stream. -/
theorem claim_C3 :
    (∀ (lines : List (Option YRec)) (v : Str),
       extractVersionLines lines v = (specBlocks v (lines.filterMap id)).flatten) ∧
    (∀ (v : Str) (l : List YRec), ∀ b ∈ specBlocks v l,
       ∃ m t, b = m :: t ∧ isMatchMarker v m = true ∧ ∀ r ∈ t, isFoundRec r = false) ∧
    (∀ (lines : List (Option YRec)) (v : Str), ∀ r ∈ extractVersionLines lines v,
       isFoundRec r = true → isMatchMarker v r = true) ∧
    (∀ (v : Str) (pre : List YRec) (m1 : YRec) (mid post : List YRec),
       isFoundRec m1 = true → isMatchMarker v m1 = false →
       (∀ r ∈ mid, isFoundRec r = false) →
       (post = [] ∨ ∃ f rest, post = f :: rest ∧ isFoundRec f = true) →
       extractVersionLines ((pre ++ m1 :: (mid ++ post)).map some) v =
         extractVersionLines ((pre ++ post).map some) v) := by
  refine ⟨?_, ?_, ?_, ?_⟩
  · intro lines v
    rw [evl_eq_spec, retain_false_eq_blocks]
  · intro v l b hb
    exact blocks_shape v l b hb
  · intro lines v r hr hf
    rw [evl_eq_spec] at hr
    exact retained_marker v (lines.filterMap id) false r hr hf
  · intro v pre m1 mid post hf hm hmid hpost
    rw [evl_eq_spec, evl_eq_spec, filterMap_map_some, filterMap_map_some]
    exact retain_drop_nonmatching_span v pre m1 mid post hf hm hmid hpost

theorem dedupAux_eq_keepFirst :
    ∀ (l seen : List Str), dedupAux l seen = keepFirst (l.filter (fun x => x ∉ seen)) := by
  intro l
  induction l with
  | nil => intro seen; simp [dedupAux, keepFirst]
  | cons c rest ih =>
      intro seen
      by_cases hc : c ∈ seen
      · rw [show dedupAux (c :: rest) seen = dedupAux rest seen from by simp [dedupAux, hc],
            show (c :: rest).filter (fun x => x ∉ seen) = rest.filter (fun x => x ∉ seen)
              from by simp [List.filter_cons, hc]]
        exact ih seen
      · rw [show dedupAux (c :: rest) seen = c :: dedupAux rest (c :: seen)
              from by simp [dedupAux, hc],
            show (c :: rest).filter (fun x => x ∉ seen) =
                c :: rest.filter (fun x => x ∉ seen)
              from by simp [List.filter_cons, hc],
            keepFirst, ih (c :: seen)]
        rw [List.filter_filter]
        congr 1
        congr 1
        apply List.filter_congr
        intro x _
        by_cases h1 : x = c
        · simp [h1]
        · simp [List.mem_cons, h1]

theorem extract_eq_keepFirst (vl : List YRec) :
    extractDependencyChains vl = keepFirst (rawChains vl) := by
  rw [extractDependencyChains, dedupAux_eq_keepFirst]
  congr 1
  apply List.filter_eq_self.mpr
  intro x _
  simp

theorem keepFirst_sub : ∀ l : List Str, List.Sublist (keepFirst l) l := by
  intro l
  induction l using keepFirst.induct with
  | case1 => simp [keepFirst]
  | case2 c rest ih =>
      rw [keepFirst]
      exact List.Sublist.cons₂ c (ih.trans (List.filter_sublist rest))

theorem keepFirst_nodup : ∀ l : List Str, (keepFirst l).Nodup := by
  intro l
  induction l using keepFirst.induct with
  | case1 => simp [keepFirst]
  | case2 c rest ih =>
      rw [keepFirst, List.nodup_cons]
      refine ⟨?_, ih⟩
      intro hc
      have := (keepFirst_sub _).subset hc
      have := (List.mem_filter.mp this).2
      simp at this

/-- C7: the returned chain list is the raw chain stream deduplicated in
first-seen order: it equals `keepFirst` of the raw chains, has no duplicate
entries, and is a sublist of the raw chains (so kept chains appear in the
relative order in which the strategies first produced them). -/
theorem claim_C7 : ∀ vl : List YRec,
    extractDependencyChains vl = keepFirst (rawChains vl) ∧
    (extractDependencyChains vl).Nodup ∧
    List.Sublist (extractDependencyChains vl) (rawChains vl) := by
  intro vl
  refine ⟨extract_eq_keepFirst vl, ?_, ?_⟩
  · rw [extract_eq_keepFirst]; exact keepFirst_nodup _
  · rw [extract_eq_keepFirst]; exact keepFirst_sub _

theorem prefix_isSub {p s : Str} (h : p <+: s) : p <:+: s := by
  obtain ⟨t, ht⟩ := h
  exact ⟨[], t, by simpa using ht⟩

theorem replaceFirst_not_present (pat : Str) :
    ∀ s : Str, ¬ pat <:+: s → replaceFirst pat s = s := by
  intro s
  induction s with
  | nil => intro _; rfl
  | cons c rest ih =>
      intro h
      have hp : ¬ pat.isPrefixOf (c :: rest) = true := by
        intro hc
        exact h (prefix_isSub ((prefixOf_iff pat (c :: rest)).mp hc))
      have hrest : ¬ pat <:+: rest := by
        intro hc
        exact h ((List.infix_cons_iff).mpr (Or.inr hc))
      rw [show replaceFirst pat (c :: rest) = c :: replaceFirst pat rest from by
            simp [replaceFirst, hp], ih hrest]

theorem replaceFirst_leftmost (pat : Str) (hne : pat ≠ []) :
    ∀ s : Str, pat <:+: s →
      ∃ a b, s = a ++ pat ++ b ∧ replaceFirst pat s = a ++ b ∧
        ∀ a' b', s = a' ++ pat ++ b' → a.length ≤ a'.length := by
  intro s
  induction s with
  | nil =>
      intro h
      rw [List.infix_nil] at h
      exact absurd h hne
  | cons c rest ih =>
      intro h
      by_cases hp : pat.isPrefixOf (c :: rest) = true
      · obtain ⟨t, ht⟩ := (prefixOf_iff pat (c :: rest)).mp hp
        refine ⟨[], t, by simpa using ht.symm, ?_, fun a' b' _ => Nat.zero_le _⟩
        rw [show replaceFirst pat (c :: rest) = (c :: rest).drop pat.length from by
              simp [replaceFirst, hp], ← ht, List.drop_left]
        simp
      · have hrest : pat <:+: rest := by
          rcases (List.infix_cons_iff).mp h with hpre | hin
          · exact absurd ((prefixOf_iff pat (c :: rest)).mpr hpre) hp
          · exact hin
        obtain ⟨a, b, hs, hr, hmin⟩ := ih hrest
        refine ⟨c :: a, b, by simp [hs], ?_, ?_⟩
        · rw [show replaceFirst pat (c :: rest) = c :: replaceFirst pat rest from by
              simp [replaceFirst, hp], hr]
          simp
        · intro a' b' heq
          cases a' with
          | nil =>
              exfalso
              apply hp
              apply (prefixOf_iff pat (c :: rest)).mpr
              rw [heq]
              exact ⟨b', by simp⟩
          | cons c' a'' =>
              have hrest' : rest = a'' ++ pat ++ b' := by
                have : c :: rest = c' :: (a'' ++ pat ++ b') := by simpa using heq
                exact (List.cons.injEq _ _ _ _ ▸ this).2
              have := hmin a'' b' hrest'
              simpa [List.length_cons] using Nat.succ_le_succ this

theorem normalize_no_agg {x c : Str} (h : c ∈ normalizeCandidate x) :
    hasAggregator c = false := by
  simp only [normalizeCandidate] at h
  by_cases hc : ((replaceFirst projToken x).isEmpty || hasAggregator (replaceFirst projToken x)) = true
  · rw [if_pos hc] at h; cases h
  · rw [if_neg hc] at h
    rcases List.mem_singleton.mp h with rfl
    simp only [Bool.or_eq_true, not_or, Bool.not_eq_true] at hc
    exact hc.2

theorem chainsOfRec_no_agg {r : YRec} {c : Str} (h : c ∈ chainsOfRec r)
    (ht : ∀ trees, r ≠ YRec.tree trees) : hasAggregator c = false := by
  cases r with
  | info msg =>
      simp only [chainsOfRec, infoChains] at h
      rcases h1 : firstCapture tryDependsAt msg with _ | x
      · rw [h1] at h
        rcases h2 : firstCapture tryExistsAt msg with _ | y
        · rw [h2] at h; cases h
        · rw [h2] at h; exact normalize_no_agg h
      · rw [h1] at h; exact normalize_no_agg h
  | list subkind items =>
      simp only [chainsOfRec] at h
      by_cases hs : subkind = str "reasons"
      · rw [if_pos hs] at h
        obtain ⟨item, _, hitem⟩ := List.mem_flatMap.mp h
        exact normalize_no_agg hitem
      · rw [if_neg hs] at h; cases h
  | tree trees => exact absurd rfl (ht trees)
  | step => cases h
  | other => cases h

/-- C1 counterexample: on this transcript the code returns a chain list whose
joined output still contains `"_project_#"` (the second occurrence in a
reasons item survives, because JS `replace` with a string pattern removes only
the first occurrence) and contains `"workspace-aggregator"` (tree-walk chains
are pushed without the aggregator filter), refuting the claim as stated. -/
theorem claim_C1_counterexample :
    parseYarnWhyOutput
        [some (.info (str "=> Found package-a@1.0.0")),
         some (.list (str "reasons") [str "_project_#a_project_#b"]),
         some (.tree [.node (some (str "x workspace-aggregator y")) []])]
        (str "1.0.0") = str "a_project_#b | x workspace-aggregator y" ∧
    isSubstr (str "_project_#")
      (parseYarnWhyOutput
        [some (.info (str "=> Found package-a@1.0.0")),
         some (.list (str "reasons") [str "_project_#a_project_#b"]),
         some (.tree [.node (some (str "x workspace-aggregator y")) []])]
        (str "1.0.0")) = true ∧
    isSubstr (str "workspace-aggregator")
      (parseYarnWhyOutput
        [some (.info (str "=> Found package-a@1.0.0")),
         some (.list (str "reasons") [str "_project_#a_project_#b"]),
         some (.tree [.node (some (str "x workspace-aggregator y")) []])]
        (str "1.0.0")) = true := by
  refine ⟨by decide, by decide, by decide⟩

/-- C1 (amended): chains produced by the list-of-reasons and info-text
strategies never contain `"workspace aggregator"` or `"workspace-aggregator"`
(every returned chain either comes from a `tree` record or is free of both
substrings), and `"_project_#"` removal deletes exactly the leftmost
occurrence of the token (a string without the token is unchanged; later
occurrences may survive, as the counterexample shows). -/
theorem claim_C1_amended :
    (∀ (lines : List (Option YRec)) (v : Str),
       ∀ c ∈ extractDependencyChains (extractVersionLines lines v),
         (∃ r, r ∈ extractVersionLines lines v ∧ (∃ trees, r = YRec.tree trees) ∧
            c ∈ chainsOfRec r) ∨
         hasAggregator c = false) ∧
    (∀ s : Str, ¬ projToken <:+: s → replaceFirst projToken s = s) ∧
    (∀ s : Str, projToken <:+: s →
       ∃ a b, s = a ++ projToken ++ b ∧ replaceFirst projToken s = a ++ b ∧
         ∀ a' b', s = a' ++ projToken ++ b' → a.length ≤ a'.length) := by
  refine ⟨?_, replaceFirst_not_present projToken, replaceFirst_leftmost projToken (by decide)⟩
  intro lines v c hc
  have hraw : c ∈ rawChains (extractVersionLines lines v) := by
    have := extract_eq_keepFirst (extractVersionLines lines v) ▸ hc
    exact (keepFirst_sub _).subset this
  obtain ⟨r, hr, hcr⟩ := List.mem_flatMap.mp hraw
  by_cases htree : ∃ trees, r = YRec.tree trees
  · exact Or.inl ⟨r, hr, htree, hcr⟩
  · exact Or.inr (chainsOfRec_no_agg hcr (fun trees heq => htree ⟨trees, heq⟩))

theorem fc_isSome_iff (tryAt : Str → Option Str) (h0 : tryAt [] = none) :
    ∀ s : Str, (firstCapture tryAt s).isSome = true ↔
      ∃ n, (tryAt (s.drop n)).isSome = true := by
  intro s
  induction s with
  | nil =>
      constructor
      · intro h
        exact absurd h (by simp [firstCapture])
      · rintro ⟨n, hn⟩
        rw [List.drop_nil, h0] at hn
        cases hn
  | cons c rest ih =>
      constructor
      · intro h
        rw [firstCapture] at h
        rcases h1 : tryAt (c :: rest) with _ | x
        · rw [h1] at h
          simp only [] at h
          obtain ⟨n, hn⟩ := ih.mp h
          exact ⟨n + 1, by simpa using hn⟩
        · exact ⟨0, by simp [h1]⟩
      · rintro ⟨n, hn⟩
        rw [firstCapture]
        rcases h1 : tryAt (c :: rest) with _ | x
        · cases n with
          | zero => rw [List.drop_zero] at hn; rw [h1] at hn; cases hn
          | succ n =>
              have hn' : (tryAt (rest.drop n)).isSome = true := by simpa using hn
              simpa using ih.mpr ⟨n, hn'⟩
        · simp

theorem existsAt_imp_dependsAt {s x : Str} (h : tryExistsAt s = some x) :
    tryDependsAt (s.drop 15) = some x := by
  unfold tryExistsAt at h
  by_cases hp : (str "exists because ").isPrefixOf s = true
  · rwa [if_pos hp] at h
  · rw [if_neg hp] at h; cases h

theorem exists_imp_depends (s : Str)
    (h : (firstCapture tryExistsAt s).isSome = true) :
    (firstCapture tryDependsAt s).isSome = true := by
  obtain ⟨n, hn⟩ := (fc_isSome_iff tryExistsAt (by decide) s).mp h
  rcases h1 : tryExistsAt (s.drop n) with _ | x
  · rw [h1] at hn; cases hn
  · apply (fc_isSome_iff tryDependsAt (by decide) s).mpr
    refine ⟨n + 15, ?_⟩
    rw [← List.drop_drop, existsAt_imp_dependsAt h1]
    rfl

theorem infoChains_eq_single (msg : Str) : infoChains msg = infoChainsSingle msg := by
  rcases h1 : firstCapture tryDependsAt msg with _ | x
  · rcases h2 : firstCapture tryExistsAt msg with _ | y
    · simp [infoChains, infoChainsSingle, h1, h2]
    · exfalso
      have := exists_imp_depends msg (by simp [h2])
      rw [h1] at this
      cases this
  · simp [infoChains, infoChainsSingle, h1]

theorem chainsOfRec_eq_single (r : YRec) : chainsOfRec r = chainsOfRecSingle r := by
  cases r <;> simp [chainsOfRec, chainsOfRecSingle, infoChains_eq_single]

/-- C8: the `exists because "<X>" depends on it` branch is dead logic — every
message it matches is already matched by the `"<X>" depends on it` pattern, so
the extractor equals the variant with the second branch deleted, on every
input. -/
theorem claim_C8 :
    (∀ msg : Str, (firstCapture tryExistsAt msg).isSome = true →
       (firstCapture tryDependsAt msg).isSome = true) ∧
    (∀ vl : List YRec, extractDependencyChains vl = extractDependencyChainsSingle vl) := by
  refine ⟨exists_imp_depends, ?_⟩
  intro vl
  unfold extractDependencyChains extractDependencyChainsSingle rawChains
  rw [funext chainsOfRec_eq_single]

/-- C8 witness: a concrete message on which the `exists because` pattern fires,
and on which (as the theorem guarantees) the broader pattern fires too. -/
theorem claim_C8_witness :
    (firstCapture tryDependsAt
      (str "This module exists because " ++
        quoteChar :: (str "a#b" ++ quoteChar :: str " depends on it."))).isSome = true :=
  claim_C8.1 _ (by decide)

/-- C10: when the first-child walk reaches a node whose children array starts
with a `null`/non-object entry, the walk returns `null` for every parent chain,
so the whole tree contributes no chain (the names accumulated so far are
discarded, not emitted as a partial chain). -/
theorem claim_C10 (t : YTree) (h : ReachesBadChild t) :
    (∀ p : Str, extractChainFromTree t p = none) ∧
    treeChains t = [] ∧
    (∀ ts1 ts2 : List YTree,
       chainsOfRec (.tree (ts1 ++ t :: ts2)) = chainsOfRec (.tree (ts1 ++ ts2))) := by
  have hwalk : ∀ p, extractChainFromTree t p = none := by
    induction h with
    | head name rest => intro p; simp [extractChainFromTree]
    | step name c rest hc ih => intro p; simp [extractChainFromTree, ih]
  have htc : treeChains t = [] := by
    unfold treeChains
    rw [hwalk []]
  refine ⟨hwalk, htc, ?_⟩
  intro ts1 ts2
  simp [chainsOfRec, htc]

/-- C10 witness: the concrete tree `{name:"root",children:[null]}` yields no
chain at all. -/
theorem claim_C10_witness :
    (∀ p : Str, extractChainFromTree (.node (some (str "root")) [.null]) p = none) ∧
    treeChains (.node (some (str "root")) [.null]) = [] ∧
    (∀ ts1 ts2 : List YTree,
       chainsOfRec (.tree (ts1 ++ (YTree.node (some (str "root")) [.null]) :: ts2)) =
         chainsOfRec (.tree (ts1 ++ ts2))) :=
  claim_C10 _ (ReachesBadChild.head _ _)

theorem walk_eq : ∀ (t : YTree) (p : Str),
    extractChainFromTree t p =
      (firstChildPath t).map (fun path => path.foldl stepArrow p) := by
  intro t p
  induction t, p using extractChainFromTree.induct with
  | case1 p => simp [extractChainFromTree, firstChildPath]
  | case2 name p n cur child tail hIH =>
      rw [show firstChildPath (YTree.node name (child :: tail)) =
            (firstChildPath child).map (fun q => name.getD [] :: q) from rfl,
          Option.map_map]
      have h2 : ((fun path => List.foldl stepArrow p path) ∘ fun q => name.getD [] :: q) =
          fun path => List.foldl stepArrow (stepArrow p (name.getD [])) path := by
        funext path
        simp [Function.comp]
      rw [h2]
      exact hIH
  | case3 name p => simp [extractChainFromTree, firstChildPath, stepArrow]

/-- C2 (code behaviour at the failing input): the code's first-child walk does
emit the visited node names, folded left with a separator — but the separator
is the mojibake byte sequence `arrowSepCode` (U+00E2 U+2020 U+2019 between
spaces), not the `" → "` (U+2192) the claim and the repository's own tests
(`yarn.test.ts:270,876`) state, so the claimed scenario output is not
produced. -/
theorem claim_C2_code_behavior :
    (∀ (t : YTree) (p : Str),
       extractChainFromTree t p =
         (firstChildPath t).map (fun path => path.foldl stepArrow p)) ∧
    parseYarnWhyOutput
        [some (.info (str "=> Found package-a@1.0.0")),
         some (.tree [.node (some (str "root"))
           [.node (some (str "package-b")) [.node (some (str "package-a@1.0.0")) []]]])]
        (str "1.0.0") =
      str "root" ++ arrowSepCode ++ str "package-b" ++ arrowSepCode ++ str "package-a@1.0.0" ∧
    parseYarnWhyOutput
        [some (.info (str "=> Found package-a@1.0.0")),
         some (.tree [.node (some (str "root"))
           [.node (some (str "package-b")) [.node (some (str "package-a@1.0.0")) []]]])]
        (str "1.0.0") ≠ str "root → package-b → package-a@1.0.0" ∧
    arrowSepCode ≠ arrowSepSpec := by
  exact ⟨walk_eq, by decide, by decide, by decide⟩

/-- C4: `getDependencyChain` returns exactly one of three results, decided by
mutually exclusive conditions — the joined (`" | "`) first five chains when at
least one chain was extracted, the parse sentinel when a transcript was
available but no chain was extracted, and the no-transcript sentinel when the
spawn threw or produced no (falsy) stdout; the two sentinel strings differ. -/
theorem claim_C4 :
    (∀ v : Str, getDependencyChain .threw v = str "Unable to determine dependency chain") ∧
    (∀ v : Str, getDependencyChain .noStdout v = str "Unable to determine dependency chain") ∧
    (∀ (lines : List (Option YRec)) (v : Str),
       (extractDependencyChains (extractVersionLines lines v) ≠ [] ∧
        getDependencyChain (.stdout lines) v =
          List.intercalate (str " | ")
            ((extractDependencyChains (extractVersionLines lines v)).take 5)) ∨
       (extractDependencyChains (extractVersionLines lines v) = [] ∧
        getDependencyChain (.stdout lines) v = str "Unable to parse yarn output")) ∧
    str "Unable to parse yarn output" ≠ str "Unable to determine dependency chain" := by
  refine ⟨fun v => rfl, fun v => rfl, ?_, by decide⟩
  intro lines v
  by_cases hc : extractDependencyChains (extractVersionLines lines v) = []
  · exact Or.inr ⟨hc, by simp [getDependencyChain, parseYarnWhyOutput, hc]⟩
  · exact Or.inl ⟨hc, by simp [getDependencyChain, parseYarnWhyOutput, hc]⟩

/-- C5: the returned chain list is capped at its first five entries (the slice
`0..5` of the deduplicated list), and a matching block with seven unique
reason items yields exactly the first five chains joined with `" | "`. -/
theorem claim_C5 :
    (∀ (lines : List (Option YRec)) (v : Str),
       ((extractDependencyChains (extractVersionLines lines v)).take 5).length ≤ 5) ∧
    parseYarnWhyOutput
        [some (.info (str "=> Found package-a@1.0.0")),
         some (.list (str "reasons")
           [str "chain1", str "chain2", str "chain3", str "chain4", str "chain5",
            str "chain6", str "chain7"])]
        (str "1.0.0") = str "chain1 | chain2 | chain3 | chain4 | chain5" ∧
    (extractDependencyChains (extractVersionLines
        [some (.info (str "=> Found package-a@1.0.0")),
         some (.list (str "reasons")
           [str "chain1", str "chain2", str "chain3", str "chain4", str "chain5",
            str "chain6", str "chain7"])]
        (str "1.0.0"))).length = 7 := by
  refine ⟨fun lines v => ?_, by decide, by decide⟩
  exact List.length_take_le 5 _

theorem stripQuotes_eq (s : Str) :
    stripTrailQuote (stripLeadQuote s) = specStripQuotes s := by
  cases s with
  | nil => rfl
  | cons c rest =>
      by_cases hc : c = quoteChar
      · simp [stripLeadQuote, stripTrailQuote, specStripQuotes, hc]
      · simp [stripLeadQuote, stripTrailQuote, specStripQuotes, hc]

/-- C6: each string item of a `reasons` list has a single leading and a single
trailing quote stripped if present and is then passed through normalization;
on the spec's scenario the output is `"package-a | package-b#package-a"`. -/
theorem claim_C6 :
    (∀ items : List Str,
       chainsOfRec (.list (str "reasons") items) =
         items.flatMap (fun it => normalizeCandidate (specStripQuotes it))) ∧
    parseYarnWhyOutput
        [some (.info (str "=> Found package-a@1.0.0")),
         some (.list (str "reasons") [str "_project_#package-a", str "package-b#package-a"])]
        (str "1.0.0") = str "package-a | package-b#package-a" := by
  refine ⟨?_, by decide⟩
  intro items
  have hfun : reasonItemChains = fun it => normalizeCandidate (specStripQuotes it) :=
    funext fun it => by unfold reasonItemChains; rw [stripQuotes_eq]
  simp [chainsOfRec, hfun]

/-- C9: an `info` record is a matching marker exactly when its message contains
the literal substrings `"=> Found"` and `"@" + version` (no token-boundary
check); with target version `"0.6"`, a transcript whose only marker message
contains `"@7.0.6"` (and, through its `dep@0.6.2` mention, the literal
`"@0.6"`) is treated as matching, and its reasons records contribute chains. -/
theorem claim_C9 :
    (∀ (v msg : Str), isMatchMarker v (.info msg) = true ↔
       ((str "=> Found") <:+: msg ∧ ('@' :: v) <:+: msg)) ∧
    isMatchMarker (str "0.6")
      (.info (str "=> Found cross-spawn@7.0.6 (also dep@0.6.2)")) = true ∧
    isSubstr (str "@7.0.6") (str "=> Found cross-spawn@7.0.6 (also dep@0.6.2)") = true ∧
    parseYarnWhyOutput
        [some (.info (str "=> Found cross-spawn@7.0.6 (also dep@0.6.2)")),
         some (.list (str "reasons") [str "pkg-a#pkg-b"])]
        (str "0.6") = str "pkg-a#pkg-b" := by
  refine ⟨?_, by decide, by decide, by decide⟩
  intro v msg
  simp [isMatchMarker, isSubstr_iff]
